import Mathlib

/-- Byte-string keys (contents of a non-null slice). -/
abbrev Key := List Nat

/-- Length of a possibly-null slice: `slice_length` is 0 on the null slice. -/
def keyLen : Option Key → Nat
  | none => 0
  | some k => k.length

/-- MINI_WAIT sentinel (source line 18). -/
def MINI_WAIT : Nat := 1

/-- MAX_INLINE_KEY_SIZE (source line 20). -/
def MAX_INLINE_KEY_SIZE : Nat := 256

/-- MINI_MAX_BATCHES. Modelled from the spec: the header declaring the
constant is not under `src/`; the spec only says the batch count is bounded
by "a fixed maximum". Its exact value is immaterial to every claim. -/
def MINI_MAX_BATCHES : Nat := 8

/-- Size of `struct meta_hdr` (uint64 + uint32 + uint32, source lines 51-56). -/
def sizeof_meta_hdr : Nat := 16

/-- Fixed part of `struct meta_entry` (source lines 22-29): uint64 + two
uint16 + bool + 256-byte inline `end_key`, padded to 8-byte alignment. -/
def sizeof_meta_entry_fixed : Nat := 272

/-- meta_entry_size (source lines 36-39): fixed header plus start-key length. -/
def meta_entry_size (key : Option Key) : Nat := sizeof_meta_entry_fixed + keyLen key

/-- One `struct meta_entry` (source lines 22-29). `start_key`/`end_key`
hold the stored bytes; the stored length fields are the list lengths. -/
structure MetaEntry where
  extent_addr : Nat
  start_key : Key
  end_key : Key
  zapped : Bool
deriving DecidableEq

/-- One meta page of the metadata log: disk address, `hdr->pos`, and the
packed entries, each with the byte offset at which it was written. -/
structure MetaPage where
  addr : Nat
  pos : Nat
  entries : List (Nat × MetaEntry)
deriving DecidableEq

/-- Modelled from the spec: `data_key_copy` (the `data_config` callbacks are
not under `src/`) copies the key bytes verbatim ("Keys are copied byte-wise",
spec section 6). -/
def data_key_copy (k : Key) : Key := k

/-- Modelled from the spec: `cache_alloc` (the cache is not under `src/`)
hands out a fresh page (spec section 6: "alloc(addr, type) → pinned page
(fresh, zeroable)"), so the unwritten inline end-key region of a freshly
appended entry reads as the zero-length key.  The source writes
`end_key_length` only in the null-key branch; on a fresh page the field is
zero either way. -/
def fresh_end_key : Key := []

/-- mini_allocator_addrs_share_extent (source lines 361-368). -/
def mini_allocator_addrs_share_extent (extent_size left_addr right_addr : Nat) : Bool :=
  right_addr / extent_size == left_addr / extent_size

/-- The in-range test of mini_allocator_for_each (source lines 420-436).
`cmp` is the user-supplied `data_key_compare` lifted to possibly-null
slices, exactly as the C function receives them; the stored entry keys are
always non-null slices (`slice_create` on in-page bytes). -/
def extent_in_range (cmp : Option Key → Option Key → Int)
    (start_key end_key : Option Key) (e : MetaEntry) : Bool :=
  match start_key, end_key with
  | none, none => true
  | some s, none =>
      decide (cmp (some s) (some e.end_key) ≤ 0)
        && decide (cmp (some e.start_key) (some s) ≤ 0)
  | qs, some en =>
      decide (cmp qs (some e.end_key) ≤ 0)
        && decide (cmp (some e.start_key) (some en) ≤ 0)

/-- The per-entry loop body of the primary pass of mini_allocator_for_each
(source lines 410-448), over the packed entries of one page.  Returns the
updated entries, the trace of `func` calls (extent addresses, in order) and
the threaded `fully_zapped` accumulator; `none` models the fatal
`platform_assert(!entry->zapped)` on a double zap (source line 442). -/
def zapEntries (cmp : Option Key → Option Key → Int)
    (start_key end_key : Option Key) (fn : Nat → Bool) :
    List (Nat × MetaEntry) → Bool → Option (List (Nat × MetaEntry) × List Nat × Bool)
  | [], fz => some ([], [], fz)
  | pe :: rest, fz =>
    if extent_in_range cmp start_key end_key pe.2 then
      if pe.2.zapped then
        none
      else
        let z := fn pe.2.extent_addr
        match zapEntries cmp start_key end_key fn rest (fz && z) with
        | none => none
        | some (rest', calls, fz') =>
            some ((pe.1, { pe.2 with zapped := z }) :: rest', pe.2.extent_addr :: calls, fz')
    else
      match zapEntries cmp start_key end_key fn rest (fz && pe.2.zapped) with
      | none => none
      | some (rest', calls, fz') => some (pe :: rest', calls, fz')

/-- The page loop of the primary pass of mini_allocator_for_each (source
lines 396-457): process each page of the chain in order, threading
`fully_zapped`. -/
def zapPass (cmp : Option Key → Option Key → Int)
    (start_key end_key : Option Key) (fn : Nat → Bool) :
    List MetaPage → Bool → Option (List MetaPage × List Nat × Bool)
  | [], fz => some ([], [], fz)
  | p :: ps, fz =>
    match zapEntries cmp start_key end_key fn p.entries fz with
    | none => none
    | some (ents', calls, fz') =>
      match zapPass cmp start_key end_key fn ps fz' with
      | none => none
      | some (ps', calls2, fz'') => some ({ p with entries := ents' } :: ps', calls ++ calls2, fz'')

/-- The second, read-only reclamation walk of mini_allocator_for_each
(source lines 459-474): at each chain position whose page's extent is not
shared with the next meta page (`next_meta_addr`, 0 at the end of the
chain), `func` is invoked on the base address of the page's extent.
Returns the trace of those base addresses. -/
def reclaimWalk (extent_size : Nat) : List MetaPage → List Nat
  | [] => []
  | p :: ps =>
    let next := match ps with
      | [] => 0
      | q :: _ => q.addr
    (if mini_allocator_addrs_share_extent extent_size p.addr next then []
     else [p.addr / extent_size * extent_size]) ++ reclaimWalk extent_size ps

/-- mini_allocator_for_each (source lines 376-477).  Returns the updated
log, the primary-pass call trace, the reclamation-pass call trace (empty
unless `fully_zapped`), and `fully_zapped`; `none` models the fatal
double-zap assertion. -/
def mini_allocator_for_each (cmp : Option Key → Option Key → Int)
    (start_key end_key : Option Key) (fn : Nat → Bool) (extent_size : Nat)
    (pages : List MetaPage) : Option (List MetaPage × List Nat × List Nat × Bool) :=
  match zapPass cmp start_key end_key fn pages true with
  | none => none
  | some (pages', calls, fully_zapped) =>
      some (pages', calls,
        if fully_zapped then reclaimWalk extent_size pages' else [],
        fully_zapped)

/-- mini_allocator_zap (source lines 488-524): for_each with the
`mini_allocator_zap_extent` action, which is `cache_dealloc` (external);
the action is the `dealloc` parameter. -/
def mini_allocator_zap (cmp : Option Key → Option Key → Int)
    (dealloc : Nat → Bool) (extent_size : Nat)
    (start_key end_key : Option Key) (pages : List MetaPage) :
    Option (List MetaPage × List Nat × List Nat × Bool) :=
  mini_allocator_for_each cmp start_key end_key dealloc extent_size pages

/-- mini_allocator_extent_count (source lines 590-617): one count per meta
page plus one per non-zapped entry. -/
def mini_allocator_extent_count (pages : List MetaPage) : Nat :=
  pages.foldl (fun acc p => acc + 1 + (p.entries.filter (fun pe => !pe.2.zapped)).length) 0

/-- Page-type tags of the cache (`page_type`); the enum lives outside
`src/`, only the two constructors' distinctness matters. -/
inductive PageTypeT where
  | misc
  | branch
  | memtable
  | trunk
deriving DecidableEq

/-- Page-type tags with which mini_allocator_for_each pins the meta pages
of the chain: the source calls `cache_get(cc, next_meta_addr, TRUE,
PAGE_TYPE_MISC)` (line 397), ignoring the `type` argument, which it only
forwards to `func`.  One pin per chain page in the primary pass. -/
def for_each_pin_types (t : PageTypeT) (pages : List MetaPage) : List PageTypeT :=
  pages.map (fun _ => PageTypeT.misc)

/-- Page-type tags with which mini_allocator_print pins the meta pages:
`cache_get(cc, next_meta_addr, TRUE, PAGE_TYPE_MISC)` (source line 337),
ignoring the `type` argument. -/
def print_pin_types (t : PageTypeT) (pages : List MetaPage) : List PageTypeT :=
  pages.map (fun _ => PageTypeT.misc)

/-- Page-type tags with which mini_allocator_extent_count pins the meta
pages: `cache_get(cc, next_meta_addr, TRUE, PAGE_TYPE_MISC)` (source line
600), ignoring the `type` argument. -/
def extent_count_pin_types (t : PageTypeT) (pages : List MetaPage) : List PageTypeT :=
  pages.map (fun _ => PageTypeT.misc)

/-- The in-memory `mini_allocator` struct (declared in the header outside
`src/`; fields as used by `mini_allocator.c`) together with the metadata
log it owns and the supply of extents the external `allocator_alloc_extent`
will hand out (consumed front-first; an empty supply models allocator
failure, which the source treats as fatal). -/
structure MiniState where
  num_batches : Nat
  next_addr : List Nat
  next_extent : List Nat
  last_meta_addr : List Nat
  last_meta_pos : List Nat
  meta_tail : Nat
  pages : List MetaPage
  fresh : List Nat
deriving DecidableEq

/-- mini_allocator_init, fresh path (`meta_tail == 0`, source lines 68-127):
zero the struct, allocate the initial meta page at `meta_head` with an
empty header, and reserve one extent per batch; returns `next_extent[0]`.
(The load path differs only in not rewriting the existing tail header; it
leaves `next_addr` all zero just the same.) -/
def mini_allocator_init (meta_head num_batches : Nat) (fresh : List Nat) :
    Option (Nat × MiniState) :=
  if MINI_MAX_BATCHES < num_batches then none
  else if fresh.length < num_batches then none
  else
    let st : MiniState :=
      { num_batches := num_batches
        next_addr := List.replicate num_batches 0
        next_extent := fresh.take num_batches
        last_meta_addr := List.replicate num_batches 0
        last_meta_pos := List.replicate num_batches 0
        meta_tail := meta_head
        pages := [⟨meta_head, sizeof_meta_hdr, []⟩]
        fresh := fresh.drop num_batches }
    some (st.next_extent.getD 0 0, st)

/-- The end-key fixup write (source lines 243-247 and 313-316): in the page
at `paddr`, overwrite the end key of the entry written at byte offset
`poff`.  The source's handle-reuse test (`last_meta_addr == meta_tail`,
lines 230-242) only chooses between reusing an already-held page handle
and pinning a second one; the memory write is identical either way. -/
def fixup_end_key (pages : List MetaPage) (paddr poff : Nat) (k : Key) : List MetaPage :=
  pages.map fun p =>
    if p.addr == paddr then
      { p with entries := p.entries.map fun pe =>
          if pe.1 == poff then (pe.1, { pe.2 with end_key := data_key_copy k }) else pe }
    else p

/-- Update the final page of the chain (the tail, which `cache_get` on
`mini->meta_tail` resolves to). -/
def updLast (f : MetaPage → MetaPage) : List MetaPage → List MetaPage
  | [] => []
  | [p] => [f p]
  | p :: q :: r => p :: updLast f (q :: r)

/-- The meta-entry record freshly written by the crossing branch of
mini_allocator_alloc (source lines 221-265): vended extent base, start key
as provided (byte-copied), zapped false; the end-key region is the
zero-length key (explicitly zeroed in the null-key branch, untouched fresh
page memory otherwise). -/
def mkMetaEntry (key : Option Key) (vended : Nat) : MetaEntry :=
  match key with
  | some k => { extent_addr := vended, start_key := data_key_copy k,
                end_key := fresh_end_key, zapped := false }
  | none => { extent_addr := vended, start_key := [],
              end_key := fresh_end_key, zapped := false }

/-- The metadata-log growth step of mini_allocator_alloc (source lines
192-212): when the entry does not fit on the tail page, link a new meta
page at `meta_tail + page_size` — or, when that address crosses an extent
boundary, at the base of a freshly reserved extent — and adopt it as the
tail. -/
def grow_meta_log (page_size extent_size : Nat) (key : Option Key) (tail : MetaPage)
    (st : MiniState) : Option MiniState :=
  if page_size < tail.pos + meta_entry_size key then
    let nmt0 := st.meta_tail + page_size
    if nmt0 % extent_size == 0 then
      match st.fresh with
      | [] => none
      | g :: fr =>
        some { st with
               meta_tail := g
               pages := st.pages ++ [⟨g, sizeof_meta_hdr, []⟩]
               fresh := fr }
    else
      some { st with
             meta_tail := nmt0
             pages := st.pages ++ [⟨nmt0, sizeof_meta_hdr, []⟩] }
  else some st

/-- The meta-entry append of the crossing branch of mini_allocator_alloc
(source lines 168-279), after the bump-pointer bookkeeping: grow the
metadata log when the entry does not fit on the tail page (lines 192-212),
assert the entry fits (line 213), perform the previous entry's end-key
fixup and the `last_meta_*` tracking update for non-null keys (lines
223-256), and write the entry at `hdr->pos` (lines 221, 257-265). -/
def alloc_append_entry (page_size extent_size batch : Nat) (key : Option Key)
    (vended : Nat) (st : MiniState) : Option MiniState :=
  match st.pages.getLast? with
  | none => none
  | some tail =>
    match grow_meta_log page_size extent_size key tail st with
    | none => none
    | some st2 =>
      match st2.pages.getLast? with
      | none => none
      | some tail2 =>
        if page_size < tail2.pos + meta_entry_size key then none
        else
          let new_meta_addr := tail2.addr
          let off := tail2.pos
          let st3 : MiniState :=
            match key with
            | some k =>
              { st2 with
                pages :=
                  (if st2.last_meta_addr.getD batch 0 ≠ 0 then
                    fixup_end_key st2.pages (st2.last_meta_addr.getD batch 0)
                      (st2.last_meta_pos.getD batch 0) k
                  else st2.pages)
                last_meta_pos := st2.last_meta_pos.set batch off
                last_meta_addr := st2.last_meta_addr.set batch new_meta_addr }
            | none => st2
          some { st3 with
                 pages := updLast
                   (fun p => { p with
                               pos := p.pos + meta_entry_size key
                               entries := p.entries ++ [(off, mkMetaEntry key vended)] })
                   st3.pages }

/-- mini_allocator_alloc (source lines 129-290), serialised on the batch:
the CAS/`MINI_WAIT` spin (lines 142-150) linearises concurrent calls per
batch, so one call is one atomic step on the state.  Returns the vended
page address, the value reported through `*next_extent`, and the new
state; `none` models the fatal assertions (batch out of range, oversize
key, entry too large for an empty page) and extent-allocator failure. -/
def mini_allocator_alloc (page_size extent_size batch : Nat) (key : Option Key)
    (st : MiniState) : Option (Nat × Nat × MiniState) :=
  if st.num_batches ≤ batch then none
  else if MAX_INLINE_KEY_SIZE < keyLen key then none
  else
    let next_addr := st.next_addr.getD batch 0
    if next_addr % extent_size == 0 then
      match st.fresh with
      | [] => none
      | f :: fr =>
        let vended := st.next_extent.getD batch 0
        let st1 : MiniState :=
          { st with
            next_extent := st.next_extent.set batch f
            next_addr := st.next_addr.set batch (vended + page_size)
            fresh := fr }
        match alloc_append_entry page_size extent_size batch key vended st1 with
        | none => none
        | some st2 => some (vended, f, st2)
    else
      some (next_addr, st.next_extent.getD batch 0,
        { st with next_addr := st.next_addr.set batch (next_addr + page_size) })

/-- mini_allocator_release (source lines 292-323): for each batch, dealloc
the reserved-but-unused `next_extent[batch]` (returned as the dealloc call
trace) and, for a non-null key, write it as the end key of the batch's
last recorded entry.  `next_addr` is untouched. -/
def mini_allocator_release (key : Option Key) (st : MiniState) : MiniState × List Nat :=
  let idxs := List.range st.num_batches
  let deallocs := idxs.map (fun b => st.next_extent.getD b 0)
  let pgs := idxs.foldl
    (fun pgs b =>
      match key with
      | some k =>
        if st.last_meta_addr.getD b 0 ≠ 0 then
          fixup_end_key pgs (st.last_meta_addr.getD b 0) (st.last_meta_pos.getD b 0) k
        else pgs
      | none => pgs)
    st.pages
  ({ st with pages := pgs }, deallocs)

/-- A concrete key comparator (lexicographic on byte lists) used only to
instantiate witness theorems; the main theorems hold for every comparator. -/
def keyCmp : Key → Key → Int
  | [], [] => 0
  | [], _ :: _ => -1
  | _ :: _, [] => 1
  | a :: x, b :: y => if a < b then -1 else if b < a then 1 else keyCmp x y

/-- The witness comparator lifted to possibly-null slices (null first). -/
def cmpSlice : Option Key → Option Key → Int
  | none, none => 0
  | none, some _ => -1
  | some _, none => 1
  | some a, some b => keyCmp a b

/-- Concrete run for witnesses: page size 4096, extent size 8192, one
batch, meta head 40960, keyed allocations. State after init. -/
def stA0 : MiniState :=
  { num_batches := 1, next_addr := [0], next_extent := [8192]
    last_meta_addr := [0], last_meta_pos := [0], meta_tail := 40960
    pages := [⟨40960, 16, []⟩], fresh := [16384, 24576] }

/-- Keyed run, state after `alloc 0 (key [1])` (an extent crossing). -/
def stA1 : MiniState :=
  { num_batches := 1, next_addr := [12288], next_extent := [16384]
    last_meta_addr := [40960], last_meta_pos := [16], meta_tail := 40960
    pages := [⟨40960, 289, [(16, ⟨8192, [1], [], false⟩)]⟩], fresh := [24576] }

/-- Keyed run, state after a further `alloc 0 (key [2])` (no crossing). -/
def stA2 : MiniState :=
  { stA1 with next_addr := [16384] }

/-- Keyed run, state after a further `alloc 0 (key [3])` (crossing with
end-key fixup of the previous entry). -/
def stA3 : MiniState :=
  { num_batches := 1, next_addr := [20480], next_extent := [24576]
    last_meta_addr := [40960], last_meta_pos := [289], meta_tail := 40960
    pages := [⟨40960, 562, [(16, ⟨8192, [1], [3], false⟩), (289, ⟨16384, [3], [], false⟩)]⟩]
    fresh := [] }

/-- Concrete unkeyed run for witnesses (non-contiguous extent supply).
State after init with supply 8192, 81920, 90112. -/
def stB0 : MiniState :=
  { num_batches := 1, next_addr := [0], next_extent := [8192]
    last_meta_addr := [0], last_meta_pos := [0], meta_tail := 40960
    pages := [⟨40960, 16, []⟩], fresh := [81920, 90112] }

/-- Unkeyed run, state after `alloc 0 none` (crossing). -/
def stB1 : MiniState :=
  { num_batches := 1, next_addr := [12288], next_extent := [81920]
    last_meta_addr := [0], last_meta_pos := [0], meta_tail := 40960
    pages := [⟨40960, 288, [(16, ⟨8192, [], [], false⟩)]⟩], fresh := [90112] }

/-- Unkeyed run, state after a further `alloc 0 none` (no crossing):
`next_addr[0] = 16384` is a multiple of the extent size but is neither 0,
nor `MINI_WAIT`, nor the base of `next_extent[0] = 81920`. -/
def stB2 : MiniState :=
  { stB1 with next_addr := [16384] }

/-- Effect of the primary pass on a single entry: an in-range entry's
zapped flag becomes the boolean returned by `func`, any other entry is
untouched. -/
def entUpd (cmp : Option Key → Option Key → Int) (qs qe : Option Key)
    (fn : Nat → Bool) (pe : Nat × MetaEntry) : Nat × MetaEntry :=
  if extent_in_range cmp qs qe pe.2 then (pe.1, { pe.2 with zapped := fn pe.2.extent_addr })
  else pe

/-- Effect of the primary pass on a page. -/
def pageUpd (cmp : Option Key → Option Key → Int) (qs qe : Option Key)
    (fn : Nat → Bool) (p : MetaPage) : MetaPage :=
  { p with entries := p.entries.map (entUpd cmp qs qe fn) }

/-- Effect of the primary pass on the whole log. -/
def zapSpecPages (cmp : Option Key → Option Key → Int) (qs qe : Option Key)
    (fn : Nat → Bool) (pages : List MetaPage) : List MetaPage :=
  pages.map (pageUpd cmp qs qe fn)

/-- All (offset, entry) pairs of the log, in traversal order. -/
def allEntryPairs (pages : List MetaPage) : List (Nat × MetaEntry) :=
  pages.flatMap (fun p => p.entries)

/-- All meta entries of the log, in traversal order. -/
def allEntries (pages : List MetaPage) : List MetaEntry :=
  (allEntryPairs pages).map (fun pe => pe.2)

/-- Precondition of the traversal (spec section 4.4): no entry that the
query selects is already zapped. -/
@[reducible]
def noPrezap (cmp : Option Key → Option Key → Int) (qs qe : Option Key)
    (pages : List MetaPage) : Prop :=
  ∀ p ∈ pages, ∀ pe ∈ p.entries,
    extent_in_range cmp qs qe pe.2 = true → pe.2.zapped = false

/-- The `fully_zapped` value the primary pass produces on a given log. -/
def fullyZappedSpec (cmp : Option Key → Option Key → Int) (qs qe : Option Key)
    (fn : Nat → Bool) (pages : List MetaPage) : Bool :=
  (allEntryPairs (zapSpecPages cmp qs qe fn pages)).all (fun pe => pe.2.zapped)

/-- The primary-pass call trace: the extent address of every in-range
entry, in traversal order, once each. -/
def callsSpec (cmp : Option Key → Option Key → Int) (qs qe : Option Key)
    (pages : List MetaPage) : List Nat :=
  ((allEntryPairs pages).filter
    (fun pe => extent_in_range cmp qs qe pe.2)).map (fun pe => pe.2.extent_addr)

/-- Concrete three-entry log used to instantiate witnesses: under the query
range [[4], [6]] only the middle entry is in range, and the only
already-zapped entry is out of range. -/
def wLog : List MetaPage :=
  [⟨100, 300, [(16, ⟨8192, [1], [3], false⟩), (289, ⟨16384, [5], [9], false⟩)]⟩,
   ⟨200, 100, [(16, ⟨90112, [10], [12], true⟩)]⟩]

/-- The log `wLog` after the primary pass of the witness query. -/
def wLogZapped : List MetaPage :=
  [⟨100, 300, [(16, ⟨8192, [1], [3], false⟩), (289, ⟨16384, [5], [9], true⟩)]⟩,
   ⟨200, 100, [(16, ⟨90112, [10], [12], true⟩)]⟩]

/-- Look up the meta entry written at byte offset `poff` of the meta page
at address `paddr` — this is how the source's end-key fixup addresses the
previous entry of a batch (`last_meta_addr`, `last_meta_pos`). -/
def findEntry (pages : List MetaPage) (paddr poff : Nat) : Option MetaEntry :=
  match pages.find? (fun p => p.addr == paddr) with
  | none => none
  | some p => (p.entries.find? (fun pe => pe.1 == poff)).map (fun pe => pe.2)

/-- The most recently appended entry of the log: the last entry of the
tail page, with the byte offset it was written at. -/
def lastEntry (pages : List MetaPage) : Option (Nat × MetaEntry) :=
  match pages.getLast? with
  | none => none
  | some p => p.entries.getLast?

/-- A concrete init → alloc → alloc run (page size 4096, extent size 8192,
non-contiguous extent supply) reaching the state refuting claim C9's
stated invariant. -/
def c9run : Option MiniState :=
  match mini_allocator_init 40960 1 [8192, 81920, 90112] with
  | none => none
  | some (_, st0) =>
    match mini_allocator_alloc 4096 8192 0 none st0 with
    | none => none
    | some (_, _, st1) =>
      match mini_allocator_alloc 4096 8192 0 none st1 with
      | none => none
      | some (_, _, st2) => some st2

/-- Amended C9 state predicate for one batch cursor: `next_addr[b]` is
either zero (fresh) or a nonzero page-aligned address. -/
@[reducible]
def next_addr_ok (ps na : Nat) : Prop :=
  na = 0 ∨ (0 < na ∧ ps ∣ na)

/-- Amended C9 invariant: every batch cursor is zero or nonzero
page-aligned, every reserved `next_extent[b]` is extent-aligned, and the
extent supply hands out extent-aligned bases. -/
@[reducible]
def mini_inv (ps es : Nat) (st : MiniState) : Prop :=
  (∀ b ∈ List.range st.num_batches, next_addr_ok ps (st.next_addr.getD b 0))
  ∧ (∀ b ∈ List.range st.num_batches, es ∣ st.next_extent.getD b 0)
  ∧ (∀ f ∈ st.fresh, es ∣ f)

/-!
Shallow embedding of `src/mini_allocator.c` (the mini-allocator of splinterdb).

Modelling conventions:
* Machine integers (`uint64`, `uint32`, `uint16`) are `Nat`; all address
  arithmetic in the source stays far below 2^64, and no operation in the
  modelled paths can overflow, so no explicit `% 2^64` is required.
* Keys (byte slices) are `List Nat`; a possibly-null `slice` is `Option Key`
  with `none` for the null slice (`slice_is_null`), mirroring the
  `slice_length`/`slice_is_null` distinction of the source.
* The buffer cache, the extent allocator and `data_config` are external
  collaborators (not under `src/`); where their behaviour matters it is
  modelled from the spec, in definitions whose doc comments say so.
* `platform_assert` / fatal allocator failure is modelled by returning
  `none` (`Option`): the process terminates, no further state exists.
* The metadata log (a singly linked list of cache pages reached through
  `cache_get` on `next_meta_addr` pointers) is represented as the resolved
  chain: a `List MetaPage` in chain order, each page carrying its disk
  address.  `hdr->next_meta_addr` of page `i` is the address of page `i+1`
  (0 for the last page), and `hdr->num_entries` equals `entries.length`
  (the source increments the counter exactly when it appends an entry).
* A meta page's packed entry area is a `List (Nat × MetaEntry)`: the byte
  offset at which an entry was written (`hdr->pos` at write time) paired
  with the entry's fields.  The source addresses the previous entry of a
  batch by `(last_meta_addr, last_meta_pos)`, i.e. by page address and
  byte offset, which is exactly what the pairs record.
* Calls into the externally supplied per-extent action `func` are recorded
  as call traces (lists of the `base_addr` arguments, in call order);
  `func` itself is a parameter `Nat → Bool`, pure as in the source, where
  its only observable output is the returned boolean.
-/

lemma zapEntries_eq (cmp : Option Key → Option Key → Int) (qs qe : Option Key)
    (fn : Nat → Bool) (l : List (Nat × MetaEntry)) (fz : Bool)
    (h : ∀ pe ∈ l, extent_in_range cmp qs qe pe.2 = true → pe.2.zapped = false) :
    zapEntries cmp qs qe fn l fz =
      some (l.map (entUpd cmp qs qe fn),
        (l.filter (fun pe => extent_in_range cmp qs qe pe.2)).map (fun pe => pe.2.extent_addr),
        fz && (l.map (entUpd cmp qs qe fn)).all (fun pe => pe.2.zapped)) := by
  induction l generalizing fz with
  | nil => simp [zapEntries]
  | cons pe rest ih =>
    have hrest : ∀ x ∈ rest, extent_in_range cmp qs qe x.2 = true → x.2.zapped = false :=
      fun x hx => h x (List.mem_cons_of_mem _ hx)
    by_cases hir : extent_in_range cmp qs qe pe.2 = true
    · have hz : pe.2.zapped = false := h pe (List.mem_cons_self _ _) hir
      simp [zapEntries, hir, hz, ih _ hrest, entUpd, Bool.and_assoc]
    · have hir' : extent_in_range cmp qs qe pe.2 = false := by
        cases hb : extent_in_range cmp qs qe pe.2
        · rfl
        · exact absurd hb hir
      simp [zapEntries, hir', ih _ hrest, entUpd, Bool.and_assoc]

lemma zapPass_eq (cmp : Option Key → Option Key → Int) (qs qe : Option Key)
    (fn : Nat → Bool) (pages : List MetaPage) (fz : Bool)
    (h : noPrezap cmp qs qe pages) :
    zapPass cmp qs qe fn pages fz =
      some (zapSpecPages cmp qs qe fn pages,
        ((allEntryPairs pages).filter
          (fun pe => extent_in_range cmp qs qe pe.2)).map (fun pe => pe.2.extent_addr),
        fz && (allEntryPairs (zapSpecPages cmp qs qe fn pages)).all
          (fun pe => pe.2.zapped)) := by
  induction pages generalizing fz with
  | nil => simp [zapPass, zapSpecPages, allEntryPairs]
  | cons p ps ih =>
    have hp : ∀ pe ∈ p.entries, extent_in_range cmp qs qe pe.2 = true → pe.2.zapped = false :=
      h p (List.mem_cons_self _ _)
    have hps : noPrezap cmp qs qe ps := fun q hq => h q (List.mem_cons_of_mem _ hq)
    simp [zapPass, zapEntries_eq cmp qs qe fn p.entries fz hp, ih _ hps,
      zapSpecPages, pageUpd, allEntryPairs, List.filter_append, List.map_append,
      Bool.and_assoc]

lemma zapEntries_none_iff (cmp : Option Key → Option Key → Int) (qs qe : Option Key)
    (fn : Nat → Bool) (l : List (Nat × MetaEntry)) (fz : Bool) :
    zapEntries cmp qs qe fn l fz = none ↔
      ∃ pe ∈ l, extent_in_range cmp qs qe pe.2 = true ∧ pe.2.zapped = true := by
  induction l generalizing fz with
  | nil => simp [zapEntries]
  | cons pe rest ih =>
    by_cases hir : extent_in_range cmp qs qe pe.2 = true
    · by_cases hz : pe.2.zapped = true
      · simp only [zapEntries, hir, if_true, hz]
        constructor
        · intro _
          exact ⟨pe, List.mem_cons_self _ _, hir, hz⟩
        · intro _
          trivial
      · have hz' : pe.2.zapped = false := by
          cases hb : pe.2.zapped
          · rfl
          · exact absurd hb hz
        simp only [zapEntries, hir, if_true, hz']
        cases hrec : zapEntries cmp qs qe fn rest (fz && fn pe.2.extent_addr) with
        | none =>
          simp only [List.mem_cons]
          constructor
          · intro _
            have := (ih (fz && fn pe.2.extent_addr)).mp hrec
            obtain ⟨x, hx, h1, h2⟩ := this
            exact ⟨x, Or.inr hx, h1, h2⟩
          · intro _
            trivial
        | some v =>
          simp only [List.mem_cons]
          constructor
          · intro hcontra
            simp at hcontra
          · rintro ⟨x, hx, h1, h2⟩
            rcases hx with rfl | hx
            · rw [hz'] at h2
              exact absurd h2 (by simp)
            · have : zapEntries cmp qs qe fn rest (fz && fn pe.2.extent_addr) = none :=
                (ih (fz && fn pe.2.extent_addr)).mpr ⟨x, hx, h1, h2⟩
              rw [this] at hrec
              exact absurd hrec (by simp)
    · have hir' : extent_in_range cmp qs qe pe.2 = false := by
        cases hb : extent_in_range cmp qs qe pe.2
        · rfl
        · exact absurd hb hir
      simp only [zapEntries, hir', Bool.false_eq_true, if_false]
      cases hrec : zapEntries cmp qs qe fn rest (fz && pe.2.zapped) with
      | none =>
        simp only [List.mem_cons]
        constructor
        · intro _
          obtain ⟨x, hx, h1, h2⟩ := (ih (fz && pe.2.zapped)).mp hrec
          exact ⟨x, Or.inr hx, h1, h2⟩
        · intro _
          trivial
      | some v =>
        simp only [List.mem_cons]
        constructor
        · intro hcontra
          simp at hcontra
        · rintro ⟨x, hx, h1, h2⟩
          rcases hx with rfl | hx
          · rw [h1] at hir'
            exact absurd hir' (by simp)
          · have : zapEntries cmp qs qe fn rest (fz && pe.2.zapped) = none :=
              (ih (fz && pe.2.zapped)).mpr ⟨x, hx, h1, h2⟩
            rw [this] at hrec
            exact absurd hrec (by simp)

lemma zapPass_none_iff (cmp : Option Key → Option Key → Int) (qs qe : Option Key)
    (fn : Nat → Bool) (pages : List MetaPage) (fz : Bool) :
    zapPass cmp qs qe fn pages fz = none ↔
      ∃ p ∈ pages, ∃ pe ∈ p.entries,
        extent_in_range cmp qs qe pe.2 = true ∧ pe.2.zapped = true := by
  induction pages generalizing fz with
  | nil => simp [zapPass]
  | cons p ps ih =>
    cases hent : zapEntries cmp qs qe fn p.entries fz with
    | none =>
      have hex := (zapEntries_none_iff cmp qs qe fn p.entries fz).mp hent
      simp only [zapPass, hent, List.mem_cons]
      constructor
      · intro _
        obtain ⟨pe, hpe, h1, h2⟩ := hex
        exact ⟨p, Or.inl rfl, pe, hpe, h1, h2⟩
      · intro _
        trivial
    | some v =>
      obtain ⟨ents', calls, fz'⟩ := v
      cases hrec : zapPass cmp qs qe fn ps fz' with
      | none =>
        simp only [zapPass, hent, hrec, List.mem_cons]
        constructor
        · intro _
          obtain ⟨q, hq, pe, hpe, h1, h2⟩ := (ih fz').mp hrec
          exact ⟨q, Or.inr hq, pe, hpe, h1, h2⟩
        · intro _
          trivial
      | some w =>
        obtain ⟨ps', calls2, fz''⟩ := w
        simp only [zapPass, hent, hrec, List.mem_cons]
        constructor
        · intro hcontra
          simp at hcontra
        · rintro ⟨q, hq, pe, hpe, h1, h2⟩
          rcases hq with rfl | hq
          · have : zapEntries cmp qs qe fn q.entries fz = none :=
              (zapEntries_none_iff cmp qs qe fn q.entries fz).mpr ⟨pe, hpe, h1, h2⟩
            rw [this] at hent
            exact absurd hent (by simp)
          · have : zapPass cmp qs qe fn ps fz' = none :=
              (ih fz').mpr ⟨q, hq, pe, hpe, h1, h2⟩
            rw [this] at hrec
            exact absurd hrec (by simp)

lemma allEntryPairs_zapSpec (cmp : Option Key → Option Key → Int) (qs qe : Option Key)
    (fn : Nat → Bool) (pages : List MetaPage) :
    allEntryPairs (zapSpecPages cmp qs qe fn pages) =
      (allEntryPairs pages).map (entUpd cmp qs qe fn) := by
  induction pages with
  | nil => simp [allEntryPairs, zapSpecPages]
  | cons p ps ih => simp [allEntryPairs, zapSpecPages, pageUpd] at ih ⊢; exact ih

lemma for_each_eq (cmp : Option Key → Option Key → Int) (qs qe : Option Key)
    (fn : Nat → Bool) (esz : Nat) (pages : List MetaPage)
    (h : noPrezap cmp qs qe pages) :
    mini_allocator_for_each cmp qs qe fn esz pages =
      some (zapSpecPages cmp qs qe fn pages,
        callsSpec cmp qs qe pages,
        (if fullyZappedSpec cmp qs qe fn pages then
          reclaimWalk esz (zapSpecPages cmp qs qe fn pages) else []),
        fullyZappedSpec cmp qs qe fn pages) := by
  simp [mini_allocator_for_each, zapPass_eq cmp qs qe fn pages true h,
    callsSpec, fullyZappedSpec]

/-- C1: for every metadata log and query pair (start_key, end_key), under
the precondition the source asserts (no in-range entry already zapped),
`mini_allocator_for_each` invokes `fn` exactly once on each meta entry
whose stored range overlaps the query — the call trace equals the list of
extent addresses of exactly the entries satisfying `extent_in_range`, in
order — and never on any other entry; and the boolean returned by `fn` is
stored into that entry's zapped flag (`zapSpecPages` sets
`zapped := fn extent_addr` on in-range entries and leaves every other
entry unchanged).  `extent_in_range` is the source's test: both query keys
null → every entry matches; only the query end key null (point query) →
`cmp start_key entry.end_key ≤ 0` and `cmp entry.start_key start_key ≤ 0`;
otherwise → `cmp start_key entry.end_key ≤ 0` and
`cmp entry.start_key end_key ≤ 0`. -/
theorem for_each_invokes_exactly_on_overlaps (cmp : Option Key → Option Key → Int)
    (qs qe : Option Key) (fn : Nat → Bool) (esz : Nat) (pages : List MetaPage)
    (h : noPrezap cmp qs qe pages) :
    ∃ reclaim fz,
      mini_allocator_for_each cmp qs qe fn esz pages =
        some (zapSpecPages cmp qs qe fn pages,
          ((allEntryPairs pages).filter
            (fun pe => extent_in_range cmp qs qe pe.2)).map (fun pe => pe.2.extent_addr),
          reclaim, fz) :=
  ⟨_, _, for_each_eq cmp qs qe fn esz pages h⟩

/-- Witness for C1 at a concrete comparator, query, action and log. -/
theorem for_each_invokes_exactly_on_overlaps_witness :
    noPrezap cmpSlice (some [4]) (some [6]) wLog
    ∧ ∃ reclaim fz,
        mini_allocator_for_each cmpSlice (some [4]) (some [6]) (fun _ => true) 8192 wLog =
          some (zapSpecPages cmpSlice (some [4]) (some [6]) (fun _ => true) wLog,
            ((allEntryPairs wLog).filter
              (fun pe => extent_in_range cmpSlice (some [4]) (some [6]) pe.2)).map
              (fun pe => pe.2.extent_addr),
            reclaim, fz) :=
  ⟨by decide, for_each_invokes_exactly_on_overlaps cmpSlice (some [4]) (some [6])
    (fun _ => true) 8192 wLog (by decide)⟩

/-- C3: `mini_allocator_for_each` returns true iff every meta entry in the
entire metadata log is zapped when the primary pass leaves it; equivalently
each in-range entry's `fn` call returned true and each out-of-range entry
was already zapped beforehand. -/
theorem for_each_fully_zapped_iff (cmp : Option Key → Option Key → Int)
    (qs qe : Option Key) (fn : Nat → Bool) (esz : Nat)
    (pages pages' : List MetaPage) (calls reclaim : List Nat) (fz : Bool)
    (h : noPrezap cmp qs qe pages)
    (heq : mini_allocator_for_each cmp qs qe fn esz pages =
      some (pages', calls, reclaim, fz)) :
    (fz = true ↔ ∀ e ∈ allEntries pages', e.zapped = true)
    ∧ (fz = true ↔
        ((∀ e ∈ allEntries pages, extent_in_range cmp qs qe e = true →
            fn e.extent_addr = true)
         ∧ (∀ e ∈ allEntries pages, extent_in_range cmp qs qe e = false →
            e.zapped = true))) := by
  rw [for_each_eq cmp qs qe fn esz pages h] at heq
  have heq' := Option.some.inj heq
  simp only [Prod.mk.injEq] at heq'
  obtain ⟨h1, h2, h3, h4⟩ := heq'
  subst h1
  subst h4
  constructor
  · rw [fullyZappedSpec, List.all_eq_true]
    constructor
    · intro hall e he
      rw [allEntries] at he
      obtain ⟨pe, hpe, rfl⟩ := List.mem_map.mp he
      exact hall pe hpe
    · intro hall pe hpe
      exact hall pe.2 (List.mem_map_of_mem _ hpe)
  · rw [fullyZappedSpec, allEntryPairs_zapSpec, List.all_eq_true]
    constructor
    · intro hall
      constructor
      · intro e he hir
        rw [allEntries] at he
        obtain ⟨pe, hpe, rfl⟩ := List.mem_map.mp he
        have hu := hall _ (List.mem_map_of_mem (entUpd cmp qs qe fn) hpe)
        simpa [entUpd, hir] using hu
      · intro e he hir
        rw [allEntries] at he
        obtain ⟨pe, hpe, rfl⟩ := List.mem_map.mp he
        have hu := hall _ (List.mem_map_of_mem (entUpd cmp qs qe fn) hpe)
        simpa [entUpd, hir] using hu
    · rintro ⟨hin, hout⟩ pe' hpe'
      obtain ⟨pe, hpe, rfl⟩ := List.mem_map.mp hpe'
      have hmem : pe.2 ∈ allEntries pages := by
        rw [allEntries]
        exact List.mem_map_of_mem _ hpe
      cases hir : extent_in_range cmp qs qe pe.2 with
      | true => simpa [entUpd, hir] using hin pe.2 hmem hir
      | false => simpa [entUpd, hir] using hout pe.2 hmem hir

/-- Witness for C3 at a concrete comparator, query, action and log. -/
theorem for_each_fully_zapped_iff_witness :
    noPrezap cmpSlice (some [4]) (some [6]) wLog
    ∧ mini_allocator_for_each cmpSlice (some [4]) (some [6]) (fun _ => true) 8192 wLog =
        some (wLogZapped, [16384], [], false)
    ∧ ((false = true ↔ ∀ e ∈ allEntries wLogZapped, e.zapped = true)
       ∧ (false = true ↔
          ((∀ e ∈ allEntries wLog,
              extent_in_range cmpSlice (some [4]) (some [6]) e = true →
                (fun _ => true) e.extent_addr = true)
           ∧ (∀ e ∈ allEntries wLog,
              extent_in_range cmpSlice (some [4]) (some [6]) e = false →
                e.zapped = true)))) :=
  ⟨by decide, by decide,
    for_each_fully_zapped_iff cmpSlice (some [4]) (some [6]) (fun _ => true)
      8192 wLog wLogZapped [16384] [] false (by decide) (by decide)⟩

/-- C5: `mini_allocator_for_each` raises the fatal double-zap assertion
(result `none`) exactly when some entry it selects as in-range is already
zapped; under the precondition that no in-range entry is already zapped
this branch is unreachable (the traversal returns a result), and in any
completed traversal no entry is passed to the extent action twice: the
call trace lists each in-range entry's extent exactly once. -/
theorem for_each_double_zap_fatal (cmp : Option Key → Option Key → Int)
    (qs qe : Option Key) (fn : Nat → Bool) (esz : Nat) (pages : List MetaPage) :
    (mini_allocator_for_each cmp qs qe fn esz pages = none ↔
      ∃ p ∈ pages, ∃ pe ∈ p.entries,
        extent_in_range cmp qs qe pe.2 = true ∧ pe.2.zapped = true)
    ∧ (∀ pages' calls reclaim fz,
        mini_allocator_for_each cmp qs qe fn esz pages =
          some (pages', calls, reclaim, fz) →
        calls = callsSpec cmp qs qe pages) := by
  have hnone : mini_allocator_for_each cmp qs qe fn esz pages = none ↔
      zapPass cmp qs qe fn pages true = none := by
    rw [mini_allocator_for_each]
    cases hz : zapPass cmp qs qe fn pages true with
    | none => simp
    | some v =>
      obtain ⟨a, b, c⟩ := v
      simp
  constructor
  · exact hnone.trans (zapPass_none_iff cmp qs qe fn pages true)
  · intro pages' calls reclaim fz heq
    have hnp : noPrezap cmp qs qe pages := by
      intro p hp pe hpe hir
      cases hb : pe.2.zapped with
      | false => rfl
      | true =>
        have : mini_allocator_for_each cmp qs qe fn esz pages = none := by
          rw [hnone]
          exact (zapPass_none_iff cmp qs qe fn pages true).mpr ⟨p, hp, pe, hpe, hir, hb⟩
        rw [this] at heq
        exact absurd heq (by simp)
    rw [for_each_eq cmp qs qe fn esz pages hnp] at heq
    have heq' := Option.some.inj heq
    simp only [Prod.mk.injEq] at heq'
    exact heq'.2.1.symm

/-- Witness for C5 at a concrete comparator, query, action and log. -/
theorem for_each_double_zap_fatal_witness :
    ((mini_allocator_for_each cmpSlice none none (fun _ => true) 8192 wLog = none ↔
        ∃ p ∈ wLog, ∃ pe ∈ p.entries,
          extent_in_range cmpSlice none none pe.2 = true ∧ pe.2.zapped = true)
     ∧ (∀ pages' calls reclaim fz,
          mini_allocator_for_each cmpSlice none none (fun _ => true) 8192 wLog =
            some (pages', calls, reclaim, fz) →
          calls = callsSpec cmpSlice none none wLog)) :=
  for_each_double_zap_fatal cmpSlice none none (fun _ => true) 8192 wLog

lemma reclaimWalk_zapSpec (cmp : Option Key → Option Key → Int) (qs qe : Option Key)
    (fn : Nat → Bool) (esz : Nat) (pages : List MetaPage) :
    reclaimWalk esz (zapSpecPages cmp qs qe fn pages) = reclaimWalk esz pages := by
  induction pages with
  | nil => rfl
  | cons p ps ih =>
    cases ps with
    | nil => simp [zapSpecPages, reclaimWalk, pageUpd]
    | cons q rest =>
      simp only [zapSpecPages, List.map_cons, reclaimWalk, pageUpd] at ih ⊢
      rw [ih]

lemma mem_reclaimWalk (esz : Nat) (hesz : 0 < esz) :
    ∀ (pages : List MetaPage) (hne : pages ≠ []),
      esz ≤ (pages.getLast hne).addr →
      ∀ p ∈ pages, p.addr / esz * esz ∈ reclaimWalk esz pages := by
  intro pages
  induction pages with
  | nil => intro hne; exact absurd rfl hne
  | cons p ps ih =>
    intro hne hlast x hx
    cases ps with
    | nil =>
      rcases List.mem_cons.mp hx with rfl | hx
      · have hpa : esz ≤ x.addr := by simpa using hlast
        have h1 : 1 ≤ x.addr / esz := (Nat.one_le_div_iff hesz).mpr hpa
        have hne0 : (0 : Nat) ≠ x.addr / esz := by omega
        simp [reclaimWalk, mini_allocator_addrs_share_extent, Nat.zero_div,
          beq_eq_false_iff_ne.mpr hne0]
      · exact absurd hx (by simp)
    | cons q rest =>
      have hlast' : esz ≤ ((q :: rest).getLast (by simp)).addr := by
        rw [List.getLast_cons (by simp)] at hlast
        exact hlast
      rcases List.mem_cons.mp hx with rfl | hx
      · by_cases hsh : q.addr / esz = x.addr / esz
        · have hq : q.addr / esz * esz ∈ reclaimWalk esz (q :: rest) :=
            ih (by simp) hlast' q (by simp)
          rw [hsh] at hq
          simp only [reclaimWalk]
          exact List.mem_append_right _ hq
        · simp only [reclaimWalk, mini_allocator_addrs_share_extent,
            beq_eq_false_iff_ne.mpr hsh]
          exact List.mem_append_left _ (by simp)
      · have hq := ih (by simp) hlast' x hx
        simp only [reclaimWalk]
        exact List.mem_append_right _ hq

/-- C4: the second, read-only reclamation pass of `mini_allocator_for_each`
runs iff `fully_zapped` is true (its call trace is `reclaimWalk` exactly
when `fz` holds and is empty otherwise), and `reclaimWalk` invokes `fn` on
the base of the extent containing each meta page at every chain position
where that extent is not shared with the next meta page; consequently,
when `mini_allocator_zap` with the null query range returns true, the
dealloc action has been applied to every extent recorded in a meta entry
(primary trace) and to every meta-page extent (reclamation trace) —
provided the chain is non-empty and its final page does not sit in the
extent of address 0, which is what the source's share-extent test against
the terminating `next_meta_addr = 0` requires. -/
theorem for_each_reclaims_iff_fully_zapped (cmp : Option Key → Option Key → Int)
    (dealloc : Nat → Bool) (esz : Nat) (pages pages' : List MetaPage)
    (calls reclaim : List Nat) (fz : Bool) (hne : pages ≠ []) (hesz : 0 < esz)
    (hlast : esz ≤ (pages.getLast hne).addr)
    (h : mini_allocator_zap cmp dealloc esz none none pages =
      some (pages', calls, reclaim, fz)) :
    reclaim = (if fz = true then reclaimWalk esz pages' else [])
    ∧ (fz = true →
        (∀ e ∈ allEntries pages, e.extent_addr ∈ calls)
        ∧ (∀ p ∈ pages, p.addr / esz * esz ∈ reclaim)) := by
  have hnp : noPrezap cmp none none pages := by
    intro p hp pe hpe hir
    cases hb : pe.2.zapped with
    | false => rfl
    | true =>
      have hnone : mini_allocator_zap cmp dealloc esz none none pages = none := by
        rw [mini_allocator_zap, mini_allocator_for_each,
          (zapPass_none_iff cmp none none dealloc pages true).mpr ⟨p, hp, pe, hpe, hir, hb⟩]
      rw [hnone] at h
      exact absurd h (by simp)
  rw [mini_allocator_zap, for_each_eq cmp none none dealloc esz pages hnp] at h
  have h' := Option.some.inj h
  simp only [Prod.mk.injEq] at h'
  obtain ⟨h1, h2, h3, h4⟩ := h'
  subst h1
  subst h4
  constructor
  · exact h3.symm
  · intro hfz
    constructor
    · intro e he
      rw [allEntries] at he
      obtain ⟨pe, hpe, rfl⟩ := List.mem_map.mp he
      rw [← h2, callsSpec]
      have : pe ∈ (allEntryPairs pages).filter
          (fun pe => extent_in_range cmp none none pe.2) := by
        rw [List.mem_filter]
        exact ⟨hpe, rfl⟩
      exact List.mem_map_of_mem _ this
    · intro p hp
      rw [← h3, hfz, if_pos rfl, reclaimWalk_zapSpec]
      exact mem_reclaimWalk esz hesz pages hne hlast p hp

/-- Witness for C4: a one-page, one-entry log whose zap fully succeeds. -/
theorem for_each_reclaims_iff_fully_zapped_witness :
    mini_allocator_zap cmpSlice (fun _ => true) 8192 none none
        [⟨40960, 289, [(16, ⟨8192, [1], [], false⟩)]⟩] =
      some ([⟨40960, 289, [(16, ⟨8192, [1], [], true⟩)]⟩], [8192], [40960], true)
    ∧ ([40960] = (if true = true then
          reclaimWalk 8192 [⟨40960, 289, [(16, ⟨8192, [1], [], true⟩)]⟩] else [])
       ∧ (true = true →
          (∀ e ∈ allEntries [⟨40960, 289, [(16, ⟨8192, [1], [], false⟩)]⟩],
            e.extent_addr ∈ [8192])
          ∧ (∀ p ∈ [(⟨40960, 289, [(16, ⟨8192, [1], [], false⟩)]⟩ : MetaPage)],
            p.addr / 8192 * 8192 ∈ [40960]))) :=
  ⟨by decide,
    for_each_reclaims_iff_fully_zapped cmpSlice (fun _ => true) 8192
      [⟨40960, 289, [(16, ⟨8192, [1], [], false⟩)]⟩]
      [⟨40960, 289, [(16, ⟨8192, [1], [], true⟩)]⟩]
      [8192] [40960] true (by decide) (by decide) (by decide) (by decide)⟩

/-- C10: a metadata log consisting of one meta page with zero entries
(fresh init, no alloc): `mini_allocator_zap` with the null query returns
true (`fully_zapped` is vacuously true), the primary pass makes no calls,
and — provided `meta_head` lies at or beyond one extent size, so its
extent is not shared with address 0 — the reclamation pass invokes the
dealloc action exactly on the base of the extent containing the meta
page. -/
theorem zap_empty_log_reclaims_meta (cmp : Option Key → Option Key → Int)
    (dealloc : Nat → Bool) (esz mh pos0 : Nat) (hesz : 0 < esz) (hmh : esz ≤ mh) :
    mini_allocator_zap cmp dealloc esz none none [⟨mh, pos0, []⟩] =
      some ([⟨mh, pos0, []⟩], [], [mh / esz * esz], true) := by
  have h1 : 1 ≤ mh / esz := (Nat.one_le_div_iff hesz).mpr hmh
  have hne0 : (0 : Nat) ≠ mh / esz := by omega
  simp [mini_allocator_zap, mini_allocator_for_each, zapPass, zapEntries,
    reclaimWalk, mini_allocator_addrs_share_extent, Nat.zero_div,
    beq_eq_false_iff_ne.mpr hne0]

/-- Witness for C10 at a concrete head address and extent size. -/
theorem zap_empty_log_reclaims_meta_witness :
    (0 : Nat) < 8192 ∧ (8192 : Nat) ≤ 40960
    ∧ mini_allocator_zap cmpSlice (fun _ => true) 8192 none none [⟨40960, 16, []⟩] =
        some ([⟨40960, 16, []⟩], [], [40960 / 8192 * 8192], true) :=
  ⟨by decide, by decide,
    zap_empty_log_reclaims_meta cmpSlice (fun _ => true) 8192 40960 16
      (by decide) (by decide)⟩

lemma getD_set_self : ∀ (l : List Nat) (i : Nat), i < l.length → ∀ v, (l.set i v).getD i 0 = v
  | [], i, h, _ => absurd h (by simp)
  | _ :: _, 0, _, _ => rfl
  | _ :: l, i + 1, h, v => getD_set_self l i (by simpa using h) v

lemma getD_set_ne : ∀ (l : List Nat) (i j : Nat), i ≠ j → ∀ v, (l.set i v).getD j 0 = l.getD j 0
  | [], _, _, _, _ => rfl
  | _ :: _, 0, 0, h, _ => absurd rfl h
  | _ :: _, 0, _ + 1, _, _ => rfl
  | _ :: _, _ + 1, 0, _, _ => rfl
  | _ :: l, i + 1, j + 1, h, v => getD_set_ne l i j (fun hh => h (by rw [hh])) v

lemma find?_append_some {α : Type} (p : α → Bool) {l₁ : List α} (l₂ : List α) {a : α}
    (h : l₁.find? p = some a) : (l₁ ++ l₂).find? p = some a := by
  induction l₁ with
  | nil => simp [List.find?] at h
  | cons x l ih =>
    cases hb : p x with
    | true =>
      simp only [List.find?_cons, hb] at h
      simp only [List.cons_append, List.find?_cons, hb]
      exact h
    | false =>
      simp only [List.find?_cons, hb] at h
      simp only [List.cons_append, List.find?_cons, hb]
      exact ih h

lemma findEntry_cons_pos {p : MetaPage} {a : Nat} (pages : List MetaPage) (o : Nat)
    (hpa : (p.addr == a) = true) :
    findEntry (p :: pages) a o =
      (p.entries.find? (fun pe => pe.1 == o)).map (fun pe => pe.2) := by
  simp [findEntry, List.find?_cons, hpa]

lemma findEntry_cons_neg {p : MetaPage} {a : Nat} (pages : List MetaPage) (o : Nat)
    (hpa : (p.addr == a) = false) :
    findEntry (p :: pages) a o = findEntry pages a o := by
  simp only [findEntry, List.find?_cons, hpa]

lemma find?_entries_fixup (k : Key) (o : Nat) (l : List (Nat × MetaEntry)) :
    (l.map (fun pe =>
      if pe.1 == o then (pe.1, { pe.2 with end_key := data_key_copy k }) else pe)).find?
        (fun pe => pe.1 == o) =
    (l.find? (fun pe => pe.1 == o)).map
      (fun pe => (pe.1, { pe.2 with end_key := data_key_copy k })) := by
  induction l with
  | nil => rfl
  | cons pe l ih =>
    cases hpe : (pe.1 == o) with
    | true =>
      rw [List.map_cons, if_pos hpe]
      have h2 : (((pe.1, { pe.2 with end_key := data_key_copy k }) : Nat × MetaEntry).1 == o)
          = true := hpe
      rw [List.find?_cons, h2, List.find?_cons, hpe]
      rfl
    | false =>
      simp only [List.map_cons, hpe, Bool.false_eq_true, if_false, List.find?_cons]
      exact ih

lemma findEntry_fixup (a o : Nat) (k : Key) : ∀ (pages : List MetaPage),
    findEntry (fixup_end_key pages a o k) a o =
      (findEntry pages a o).map (fun e => { e with end_key := data_key_copy k }) := by
  intro pages
  induction pages with
  | nil => rfl
  | cons p ps ih =>
    have hfix : fixup_end_key (p :: ps) a o k =
        (if p.addr == a then
          { p with entries := p.entries.map fun pe =>
              if pe.1 == o then (pe.1, { pe.2 with end_key := data_key_copy k }) else pe }
         else p) :: fixup_end_key ps a o k := rfl
    cases hpa : (p.addr == a) with
    | true =>
      rw [hfix, if_pos hpa]
      rw [findEntry_cons_pos _ o (by simpa using hpa)]
      rw [findEntry_cons_pos _ o hpa]
      dsimp only
      rw [find?_entries_fixup]
      cases hfe : p.entries.find? (fun pe => pe.1 == o) with
      | none => simp only [hfe]; rfl
      | some pe => simp only [hfe]; rfl
    | false =>
      rw [hfix, if_neg (by simp [hpa])]
      rw [findEntry_cons_neg _ o hpa, findEntry_cons_neg _ o hpa]
      exact ih

lemma findEntry_append (a o : Nat) (q : MetaPage) {pages : List MetaPage} {e : MetaEntry}
    (h : findEntry pages a o = some e) : findEntry (pages ++ [q]) a o = some e := by
  rw [findEntry] at h ⊢
  cases hf : pages.find? (fun p => p.addr == a) with
  | none => rw [hf] at h; exact absurd h (by simp)
  | some p =>
    rw [hf] at h
    rw [find?_append_some _ _ hf]
    exact h

lemma findEntry_updLast_append (a o : Nat) (x : Nat × MetaEntry) (sz : Nat) :
    ∀ (pages : List MetaPage) (e : MetaEntry), findEntry pages a o = some e →
      findEntry (updLast
        (fun p => { p with pos := p.pos + sz, entries := p.entries ++ [x] }) pages) a o =
        some e := by
  intro pages
  induction pages with
  | nil => intro e h; simp [findEntry, List.find?] at h
  | cons p ps ih =>
    intro e h
    cases ps with
    | nil =>
      cases hpa : (p.addr == a) with
      | false =>
        rw [findEntry_cons_neg _ o hpa] at h
        simp [findEntry, List.find?] at h
      | true =>
        rw [findEntry_cons_pos _ o hpa] at h
        show findEntry [{ p with pos := p.pos + sz, entries := p.entries ++ [x] }] a o = some e
        rw [findEntry_cons_pos _ o (by simpa using hpa)]
        show ((p.entries ++ [x]).find? (fun pe => pe.1 == o)).map (fun pe => pe.2) = some e
        cases hfe : p.entries.find? (fun pe => pe.1 == o) with
        | none => rw [hfe] at h; exact absurd h (by simp)
        | some pe =>
          rw [hfe] at h
          rw [find?_append_some _ _ hfe]
          exact h
    | cons q rest =>
      cases hpa : (p.addr == a) with
      | true =>
        rw [findEntry_cons_pos _ o hpa] at h
        show findEntry (p :: updLast _ (q :: rest)) a o = some e
        rw [findEntry_cons_pos _ o hpa]
        exact h
      | false =>
        rw [findEntry_cons_neg _ o hpa] at h
        show findEntry (p :: updLast _ (q :: rest)) a o = some e
        rw [findEntry_cons_neg _ o hpa]
        exact ih e h

lemma getLast?_cons_ne {α : Type} (a : α) (l : List α) (h : l ≠ []) :
    (a :: l).getLast? = l.getLast? := by
  cases l with
  | nil => exact absurd rfl h
  | cons b m => exact List.getLast?_cons_cons

lemma getLast?_updLast (f : MetaPage → MetaPage) : ∀ (l : List MetaPage),
    (updLast f l).getLast? = l.getLast?.map f := by
  intro l
  induction l with
  | nil => rfl
  | cons p ps ih =>
    cases ps with
    | nil => rfl
    | cons q r =>
      have h1 : updLast f (p :: q :: r) = p :: updLast f (q :: r) := rfl
      have h2 : updLast f (q :: r) ≠ [] := by
        cases r with
        | nil => simp [updLast]
        | cons s r2 => simp [updLast]
      rw [h1, getLast?_cons_ne _ _ h2, ih, List.getLast?_cons_cons]

lemma lastEntry_updLast_append (x : Nat × MetaEntry) (sz : Nat) (pages : List MetaPage)
    (hne : pages ≠ []) :
    lastEntry (updLast
      (fun p => { p with pos := p.pos + sz, entries := p.entries ++ [x] }) pages) = some x := by
  rw [lastEntry, getLast?_updLast]
  cases hL : pages.getLast? with
  | none => exact absurd (List.getLast?_eq_none_iff.mp hL) hne
  | some p => simp

lemma grow_meta_log_spec (ps es : Nat) (key : Option Key) (tail : MetaPage)
    (st st2 : MiniState) (h : grow_meta_log ps es key tail st = some st2) :
    (st2.pages = st.pages ∨ ∃ np, st2.pages = st.pages ++ [⟨np, sizeof_meta_hdr, []⟩])
    ∧ st2.last_meta_addr = st.last_meta_addr
    ∧ st2.last_meta_pos = st.last_meta_pos
    ∧ st2.next_addr = st.next_addr
    ∧ st2.next_extent = st.next_extent
    ∧ st2.num_batches = st.num_batches
    ∧ (st2.fresh = st.fresh ∨ ∃ g, st.fresh = g :: st2.fresh) := by
  simp only [grow_meta_log] at h
  split at h
  · split at h
    · cases hf : st.fresh with
      | nil => rw [hf] at h; exact absurd h (by simp)
      | cons g fr =>
        rw [hf] at h
        cases Option.some.inj h
        exact ⟨Or.inr ⟨g, rfl⟩, rfl, rfl, rfl, rfl, rfl, Or.inr ⟨g, rfl⟩⟩
    · cases Option.some.inj h
      exact ⟨Or.inr ⟨st.meta_tail + ps, rfl⟩, rfl, rfl, rfl, rfl, rfl, Or.inl rfl⟩
  · cases Option.some.inj h
    exact ⟨Or.inl rfl, rfl, rfl, rfl, rfl, rfl, Or.inl rfl⟩

lemma alloc_append_entry_spec (ps es b : Nat) (key : Option Key) (v : Nat)
    (st1 st' : MiniState) (h : alloc_append_entry ps es b key v st1 = some st') :
    st'.next_addr = st1.next_addr ∧ st'.next_extent = st1.next_extent
    ∧ st'.num_batches = st1.num_batches
    ∧ (st'.fresh = st1.fresh ∨ ∃ g, st1.fresh = g :: st'.fresh)
    ∧ (∃ off, lastEntry st'.pages = some (off, mkMetaEntry key v))
    ∧ (∀ k e, key = some k → st1.last_meta_addr.getD b 0 ≠ 0 →
        findEntry st1.pages (st1.last_meta_addr.getD b 0)
          (st1.last_meta_pos.getD b 0) = some e →
        findEntry st'.pages (st1.last_meta_addr.getD b 0)
          (st1.last_meta_pos.getD b 0) = some { e with end_key := data_key_copy k }) := by
  simp only [alloc_append_entry] at h
  cases hL : st1.pages.getLast? with
  | none => rw [hL] at h; exact absurd h (by simp)
  | some tail =>
    rw [hL] at h
    simp only [] at h
    cases hG : grow_meta_log ps es key tail st1 with
    | none => rw [hG] at h; exact absurd h (by simp)
    | some st2 =>
      rw [hG] at h
      simp only [] at h
      obtain ⟨hpg, hlma, hlmp, hna, hnex, hnb, hfr⟩ := grow_meta_log_spec ps es key tail st1 st2 hG
      cases hL2 : st2.pages.getLast? with
      | none => rw [hL2] at h; exact absurd h (by simp)
      | some tail2 =>
        rw [hL2] at h
        simp only [] at h
        have hne2 : st2.pages ≠ [] := by
          intro hh
          rw [hh] at hL2
          simp at hL2
        split at h
        · exact absurd h (by simp)
        · cases key with
          | none =>
            dsimp only at h
            cases Option.some.inj h
            refine ⟨hna, hnex, hnb, hfr, ⟨tail2.pos, ?_⟩, ?_⟩
            · exact lastEntry_updLast_append (tail2.pos, mkMetaEntry none v)
                (meta_entry_size none) st2.pages hne2
            · intro k e hk
              exact absurd hk (by simp)
          | some k =>
            dsimp only at h
            cases Option.some.inj h
            dsimp only
            by_cases hz : st2.last_meta_addr.getD b 0 ≠ 0
            · rw [if_pos hz]
              have hne3 : fixup_end_key st2.pages (st2.last_meta_addr.getD b 0)
                  (st2.last_meta_pos.getD b 0) k ≠ [] := by
                rw [fixup_end_key]
                simpa using hne2
              refine ⟨hna, hnex, hnb, hfr, ⟨tail2.pos, ?_⟩, ?_⟩
              · exact lastEntry_updLast_append (tail2.pos, mkMetaEntry (some k) v)
                  (meta_entry_size (some k)) _ hne3
              · intro k' e hk hlz hfind
                cases Option.some.inj hk
                have hfind2 : findEntry st2.pages (st1.last_meta_addr.getD b 0)
                    (st1.last_meta_pos.getD b 0) = some e := by
                  rcases hpg with heq | ⟨np, heq⟩
                  · rw [heq]; exact hfind
                  · rw [heq]; exact findEntry_append _ _ _ hfind
                have hfix : findEntry (fixup_end_key st2.pages
                    (st2.last_meta_addr.getD b 0) (st2.last_meta_pos.getD b 0) k)
                    (st1.last_meta_addr.getD b 0) (st1.last_meta_pos.getD b 0) =
                    some { e with end_key := data_key_copy k } := by
                  rw [hlma, hlmp]
                  rw [findEntry_fixup]
                  rw [hfind2]
                  rfl
                exact findEntry_updLast_append _ _ _ _ _ _ hfix
            · rw [if_neg hz]
              rw [hlma] at hz
              refine ⟨hna, hnex, hnb, hfr, ⟨tail2.pos, ?_⟩, ?_⟩
              · exact lastEntry_updLast_append (tail2.pos, mkMetaEntry (some k) v)
                  (meta_entry_size (some k)) st2.pages hne2
              · intro k' e hk hlz hfind
                exact absurd hlz hz

lemma mini_allocator_alloc_spec (ps es b : Nat) (key : Option Key) (st : MiniState)
    (r nrep : Nat) (st' : MiniState) (hb : b < st.next_addr.length)
    (h : mini_allocator_alloc ps es b key st = some (r, nrep, st')) :
    st'.next_addr.getD b 0 = r + ps
    ∧ st'.next_addr.length = st.next_addr.length
    ∧ (st.next_addr.getD b 0 % es = 0 → r = st.next_extent.getD b 0)
    ∧ (st.next_addr.getD b 0 % es ≠ 0 →
        r = st.next_addr.getD b 0 ∧ nrep = st.next_extent.getD b 0) := by
  simp only [mini_allocator_alloc] at h
  split at h
  · exact absurd h (by simp)
  · split at h
    · exact absurd h (by simp)
    · split at h
      · rename_i hcross
        have hcross' : st.next_addr.getD b 0 % es = 0 := by simpa using hcross
        cases hf : st.fresh with
        | nil => rw [hf] at h; exact absurd h (by simp)
        | cons f fr =>
          rw [hf] at h
          simp only [] at h
          cases hA : alloc_append_entry ps es b key (st.next_extent.getD b 0)
              { st with
                next_extent := st.next_extent.set b f
                next_addr := st.next_addr.set b (st.next_extent.getD b 0 + ps)
                fresh := fr } with
          | none => rw [hA] at h; exact absurd h (by simp)
          | some st2 =>
            rw [hA] at h
            obtain ⟨hna, hnex, hnb, hfr2, hle, hfx⟩ := alloc_append_entry_spec _ _ _ _ _ _ _ hA
            have h' := Option.some.inj h
            simp only [Prod.mk.injEq] at h'
            obtain ⟨hr, hnrep, hst⟩ := h'
            subst hr
            subst hst
            refine ⟨?_, ?_, fun _ => rfl, fun hc => absurd hcross' hc⟩
            · rw [hna]
              exact getD_set_self st.next_addr b hb _
            · rw [hna]
              simp
      · rename_i hcross
        have hcross' : ¬st.next_addr.getD b 0 % es = 0 := by simpa using hcross
        have h' := Option.some.inj h
        simp only [Prod.mk.injEq] at h'
        obtain ⟨hr, hnrep, hst⟩ := h'
        subst hr
        subst hst
        exact ⟨getD_set_self st.next_addr b hb _, by simp,
          fun hc => absurd hc hcross', fun _ => ⟨rfl, hnrep.symm⟩⟩

/-- C2: over consecutive serialised calls of `mini_allocator_alloc` on one
batch, returned addresses increase by exactly one page size — the next
call returns the previous return plus `page_size` (hence strictly greater)
— except at an extent crossing (captured `next_addr[b]` divisible by the
extent size), where the call returns the base address stored in
`next_extent[b]` before the call and then advances `next_addr[b]` to that
base plus one page size. -/
theorem alloc_bump_monotone (ps es b : Nat) (k1 k2 : Option Key)
    (st st1 st2 : MiniState) (r1 n1 r2 n2 : Nat)
    (hps : 0 < ps) (hb : b < st.next_addr.length)
    (h1 : mini_allocator_alloc ps es b k1 st = some (r1, n1, st1))
    (h2 : mini_allocator_alloc ps es b k2 st1 = some (r2, n2, st2)) :
    (st1.next_addr.getD b 0 % es ≠ 0 → r2 = r1 + ps ∧ r1 < r2)
    ∧ (st1.next_addr.getD b 0 % es = 0 →
        r2 = st1.next_extent.getD b 0 ∧ st2.next_addr.getD b 0 = r2 + ps) := by
  obtain ⟨ha1, hlen1, _, _⟩ := mini_allocator_alloc_spec ps es b k1 st r1 n1 st1 hb h1
  have hb1 : b < st1.next_addr.length := by rw [hlen1]; exact hb
  obtain ⟨ha2, hlen2, hcr2, hnc2⟩ := mini_allocator_alloc_spec ps es b k2 st1 r2 n2 st2 hb1 h2
  constructor
  · intro hnc
    obtain ⟨hr2, _⟩ := hnc2 hnc
    rw [hr2, ha1]
    exact ⟨rfl, by omega⟩
  · intro hc
    exact ⟨hcr2 hc, ha2⟩

/-- Witness for C2 on the concrete unkeyed run (the second call does not
cross, and returns the first call's address plus one page). -/
theorem alloc_bump_monotone_witness :
    (0 : Nat) < 4096 ∧ 0 < stB0.next_addr.length
    ∧ mini_allocator_alloc 4096 8192 0 none stB0 = some (8192, 81920, stB1)
    ∧ mini_allocator_alloc 4096 8192 0 none stB1 = some (12288, 81920, stB2)
    ∧ ((stB1.next_addr.getD 0 0 % 8192 ≠ 0 → 12288 = 8192 + 4096 ∧ 8192 < 12288)
       ∧ (stB1.next_addr.getD 0 0 % 8192 = 0 →
          12288 = stB1.next_extent.getD 0 0
          ∧ stB2.next_addr.getD 0 0 = 12288 + 4096)) :=
  ⟨by decide, by decide, by decide, by decide,
    alloc_bump_monotone 4096 8192 0 none none stB0 stB1 stB2 8192 81920 12288 81920
      (by decide) (by decide) (by decide) (by decide)⟩

/-- C6: when `mini_allocator_alloc` appends a new entry with non-empty key
`k` on batch `b` and `last_meta_addr[b]` is nonzero, it writes `k` as the
end key of the previous entry of that batch (located by
`(last_meta_addr[b], last_meta_pos[b])`), and the freshly appended entry
has start key `k`; hence the earlier entry's end key equals the later
entry's start key (the end-key chain of consecutive vended extents). -/
theorem alloc_end_key_chain (ps es b : Nat) (k : Key) (st st' : MiniState)
    (r nrep : Nat) (e : MetaEntry)
    (hlma : st.last_meta_addr.getD b 0 ≠ 0)
    (hfind : findEntry st.pages (st.last_meta_addr.getD b 0)
      (st.last_meta_pos.getD b 0) = some e)
    (hcross : st.next_addr.getD b 0 % es = 0)
    (h : mini_allocator_alloc ps es b (some k) st = some (r, nrep, st')) :
    findEntry st'.pages (st.last_meta_addr.getD b 0) (st.last_meta_pos.getD b 0)
      = some { e with end_key := data_key_copy k }
    ∧ (∃ off, lastEntry st'.pages = some (off, mkMetaEntry (some k) r))
    ∧ ({ e with end_key := data_key_copy k }).end_key
      = (mkMetaEntry (some k) r).start_key := by
  simp only [mini_allocator_alloc] at h
  split at h
  · exact absurd h (by simp)
  · split at h
    · exact absurd h (by simp)
    · split at h
      · cases hf : st.fresh with
        | nil => rw [hf] at h; exact absurd h (by simp)
        | cons f fr =>
          rw [hf] at h
          simp only [] at h
          cases hA : alloc_append_entry ps es b (some k) (st.next_extent.getD b 0)
              { st with
                next_extent := st.next_extent.set b f
                next_addr := st.next_addr.set b (st.next_extent.getD b 0 + ps)
                fresh := fr } with
          | none => rw [hA] at h; exact absurd h (by simp)
          | some stA =>
            rw [hA] at h
            obtain ⟨hna, hnex, hnb, hfr2, hle, hfx⟩ := alloc_append_entry_spec _ _ _ _ _ _ _ hA
            have h' := Option.some.inj h
            simp only [Prod.mk.injEq] at h'
            obtain ⟨hr, hnrep, hst⟩ := h'
            subst hr
            subst hst
            exact ⟨hfx k e rfl hlma hfind, hle, rfl⟩
      · rename_i hnc
        exact absurd (by simpa using hcross) hnc

/-- Witness for C6 on the concrete keyed run: the third alloc (key [3])
back-patches the first entry's end key and appends an entry whose start
key is [3]. -/
theorem alloc_end_key_chain_witness :
    stA2.last_meta_addr.getD 0 0 ≠ 0
    ∧ findEntry stA2.pages (stA2.last_meta_addr.getD 0 0) (stA2.last_meta_pos.getD 0 0)
        = some ⟨8192, [1], [], false⟩
    ∧ stA2.next_addr.getD 0 0 % 8192 = 0
    ∧ mini_allocator_alloc 4096 8192 0 (some [3]) stA2 = some (16384, 24576, stA3)
    ∧ (findEntry stA3.pages (stA2.last_meta_addr.getD 0 0) (stA2.last_meta_pos.getD 0 0)
        = some { (⟨8192, [1], [], false⟩ : MetaEntry) with end_key := data_key_copy [3] }
       ∧ (∃ off, lastEntry stA3.pages = some (off, mkMetaEntry (some [3]) 16384))
       ∧ ({ (⟨8192, [1], [], false⟩ : MetaEntry) with end_key := data_key_copy [3] }).end_key
          = (mkMetaEntry (some [3]) 16384).start_key) :=
  ⟨by decide, by decide, by decide, by decide,
    alloc_end_key_chain 4096 8192 0 [3] stA2 stA3 16384 24576 ⟨8192, [1], [], false⟩
      (by decide) (by decide) (by decide) (by decide)⟩

/-- C7: every meta entry freshly appended by the crossing branch of
`mini_allocator_alloc` is written with `extent_addr` equal to the vended
extent base (the returned address), `zapped = false`, `start_key` equal to
the provided key (byte-copied; the empty list when the key is the null
slice, in which case both stored key lengths are zero), and a zero-length
end key (`fresh_end_key`, the zeroed inline end-key region). -/
theorem alloc_fresh_entry_fields (ps es b : Nat) (key : Option Key)
    (st st' : MiniState) (r nrep : Nat)
    (hcross : st.next_addr.getD b 0 % es = 0)
    (h : mini_allocator_alloc ps es b key st = some (r, nrep, st')) :
    ∃ off, lastEntry st'.pages = some (off,
      { extent_addr := r
        start_key := match key with | some k => data_key_copy k | none => []
        end_key := fresh_end_key
        zapped := false }) := by
  simp only [mini_allocator_alloc] at h
  split at h
  · exact absurd h (by simp)
  · split at h
    · exact absurd h (by simp)
    · split at h
      · cases hf : st.fresh with
        | nil => rw [hf] at h; exact absurd h (by simp)
        | cons f fr =>
          rw [hf] at h
          simp only [] at h
          cases hA : alloc_append_entry ps es b key (st.next_extent.getD b 0)
              { st with
                next_extent := st.next_extent.set b f
                next_addr := st.next_addr.set b (st.next_extent.getD b 0 + ps)
                fresh := fr } with
          | none => rw [hA] at h; exact absurd h (by simp)
          | some stA =>
            rw [hA] at h
            obtain ⟨hna, hnex, hnb, hfr2, hle, hfx⟩ := alloc_append_entry_spec _ _ _ _ _ _ _ hA
            have h' := Option.some.inj h
            simp only [Prod.mk.injEq] at h'
            obtain ⟨hr, hnrep, hst⟩ := h'
            subst hr
            subst hst
            obtain ⟨off, hoff⟩ := hle
            refine ⟨off, ?_⟩
            cases key with
            | none => exact hoff
            | some k => exact hoff
      · rename_i hnc
        exact absurd (by simpa using hcross) hnc

/-- Witness for C7 on the concrete unkeyed run (first alloc, null key). -/
theorem alloc_fresh_entry_fields_witness :
    stB0.next_addr.getD 0 0 % 8192 = 0
    ∧ mini_allocator_alloc 4096 8192 0 none stB0 = some (8192, 81920, stB1)
    ∧ (∃ off, lastEntry stB1.pages = some (off,
        { extent_addr := 8192
          start_key := match (none : Option Key) with | some k => data_key_copy k | none => []
          end_key := fresh_end_key
          zapped := false })) :=
  ⟨by decide, by decide,
    alloc_fresh_entry_fields 4096 8192 0 none stB0 stB1 8192 81920
      (by decide) (by decide)⟩

/-- C8 (code bug evaluation): at the failing input `type = PAGE_TYPE_BRANCH`
with a one-page metadata log, the meta-page pins of mini_allocator_for_each,
mini_allocator_print and mini_allocator_extent_count all carry the constant
`PAGE_TYPE_MISC` (source lines 397, 337, 600) rather than the supplied tag:
the same pages that init/alloc/release access with the supplied tag are
re-pinned by the traversals under a different tag. -/
theorem for_each_pins_with_misc_type :
    for_each_pin_types PageTypeT.branch [⟨40960, 16, []⟩] = [PageTypeT.misc]
    ∧ print_pin_types PageTypeT.branch [⟨40960, 16, []⟩] = [PageTypeT.misc]
    ∧ extent_count_pin_types PageTypeT.branch [⟨40960, 16, []⟩] = [PageTypeT.misc]
    ∧ PageTypeT.misc ≠ PageTypeT.branch := by decide

/-- C9 counterexample: after init and two allocs on batch 0 the state has
`next_addr[0] = 16384` and `next_extent[0] = 81920`.  16384 is a multiple
of the extent size — it is the base of the extent adjacent to the one just
exhausted, hence not a page address strictly inside the current extent —
and it is neither 0, nor `MINI_WAIT`, nor the base of `next_extent[0]`.
So outside the critical section `next_addr[b]` can fall outside all four
cases the claim lists. -/
theorem next_addr_invariant_counterexample :
    c9run.map (fun st => (st.next_addr.getD 0 0, st.next_extent.getD 0 0))
      = some (16384, 81920)
    ∧ 16384 % 8192 = 0
    ∧ (16384 : Nat) ≠ 0
    ∧ (16384 : Nat) ≠ MINI_WAIT
    ∧ (16384 : Nat) ≠ 81920 := by decide

lemma getD_replicate0 : ∀ (n b : Nat), (List.replicate n (0 : Nat)).getD b 0 = 0
  | 0, _ => rfl
  | _ + 1, 0 => rfl
  | n + 1, b + 1 => getD_replicate0 n b

lemma dvd_getD (es : Nat) : ∀ (l : List Nat) (b : Nat), (∀ x ∈ l, es ∣ x) → es ∣ l.getD b 0
  | [], _, _ => dvd_zero es
  | x :: _, 0, h => h x (List.mem_cons_self _ _)
  | _ :: l, b + 1, h => dvd_getD es l b (fun y hy => h y (List.mem_cons_of_mem _ hy))

lemma getD_set_or : ∀ (l : List Nat) (i j v : Nat),
    (l.set i v).getD j 0 = v ∨ (l.set i v).getD j 0 = l.getD j 0
  | [], _, _, _ => Or.inr rfl
  | _ :: _, 0, 0, _ => Or.inl rfl
  | _ :: _, 0, _ + 1, _ => Or.inr rfl
  | _ :: _, _ + 1, 0, _ => Or.inr rfl
  | _ :: l, i + 1, j + 1, v => getD_set_or l i j v

/-- C9 (amended): as a reachable-state invariant preserved by init, alloc
and release (serialised; `MINI_WAIT` exists only inside the sentinel-held
critical section), for every batch `b` the cursor `next_addr[b]` is either
zero (fresh) or a nonzero page-aligned address; when it is not a multiple
of the extent size it lies strictly inside the extent containing it, and
when it is a multiple of the extent size the batch is about to cross.  The
original claim's "base address of next_extent[b]" does not hold: see the
counterexample. -/
theorem next_addr_invariant_amended (ps es : Nat) (hps : 0 < ps) (hes : 0 < es)
    (hdvd : ps ∣ es) :
    (∀ mh nb fresh r st, (∀ f ∈ fresh, es ∣ f) →
        mini_allocator_init mh nb fresh = some (r, st) → mini_inv ps es st)
    ∧ (∀ b key st r n st', mini_inv ps es st →
        mini_allocator_alloc ps es b key st = some (r, n, st') → mini_inv ps es st')
    ∧ (∀ key st, mini_inv ps es st → mini_inv ps es (mini_allocator_release key st).1)
    ∧ (∀ na, next_addr_ok ps na → na % es ≠ 0 →
        na / es * es < na ∧ na < na / es * es + es) := by
  refine ⟨?_, ?_, ?_, ?_⟩
  · intro mh nb fresh r st hf h
    simp only [mini_allocator_init] at h
    split at h
    · exact absurd h (by simp)
    · split at h
      · exact absurd h (by simp)
      · have h' := Option.some.inj h
        simp only [Prod.mk.injEq] at h'
        obtain ⟨h1, hst⟩ := h'
        subst hst
        refine ⟨?_, ?_, ?_⟩
        · intro b _
          exact Or.inl (getD_replicate0 nb b)
        · intro b _
          exact dvd_getD es _ b (fun x hx => hf x (List.take_subset nb fresh hx))
        · intro x hx
          exact hf x (List.drop_subset nb fresh hx)
  · intro b key st r n st' hinv h
    obtain ⟨hinv1, hinv2, hinv3⟩ := hinv
    simp only [mini_allocator_alloc] at h
    split at h
    · exact absurd h (by simp)
    · rename_i hbn
      split at h
      · exact absurd h (by simp)
      · have hbb : b < st.num_batches := Nat.lt_of_not_le hbn
        split at h
        · cases hf : st.fresh with
          | nil => rw [hf] at h; exact absurd h (by simp)
          | cons f fr =>
            rw [hf] at h
            simp only [] at h
            cases hA : alloc_append_entry ps es b key (st.next_extent.getD b 0)
                { st with
                  next_extent := st.next_extent.set b f
                  next_addr := st.next_addr.set b (st.next_extent.getD b 0 + ps)
                  fresh := fr } with
            | none => rw [hA] at h; exact absurd h (by simp)
            | some stA =>
              rw [hA] at h
              obtain ⟨hna, hnex, hnb, hfr2, hle, hfx⟩ :=
                alloc_append_entry_spec _ _ _ _ _ _ _ hA
              have h' := Option.some.inj h
              simp only [Prod.mk.injEq] at h'
              obtain ⟨hr, hnrep, hst⟩ := h'
              subst hst
              have hna' : stA.next_addr =
                  st.next_addr.set b (st.next_extent.getD b 0 + ps) := hna
              have hnex' : stA.next_extent = st.next_extent.set b f := hnex
              have hnb' : stA.num_batches = st.num_batches := hnb
              have hfr2' : stA.fresh = fr ∨ ∃ g, fr = g :: stA.fresh := hfr2
              have hvd : es ∣ st.next_extent.getD b 0 :=
                hinv2 b (List.mem_range.mpr hbb)
              refine ⟨?_, ?_, ?_⟩
              · intro b2 hb2
                rw [hna']
                rcases getD_set_or st.next_addr b b2 (st.next_extent.getD b 0 + ps)
                  with hcase | hcase
                · rw [hcase]
                  refine Or.inr ⟨Nat.lt_of_lt_of_le hps (Nat.le_add_left ps _), ?_⟩
                  exact Nat.dvd_add (dvd_trans hdvd hvd) dvd_rfl
                · rw [hcase]
                  rw [hnb'] at hb2
                  exact hinv1 b2 hb2
              · intro b2 hb2
                rw [hnex']
                rcases getD_set_or st.next_extent b b2 f with hcase | hcase
                · rw [hcase]
                  exact hinv3 f (by rw [hf]; exact List.mem_cons_self _ _)
                · rw [hcase]
                  rw [hnb'] at hb2
                  exact hinv2 b2 hb2
              · intro x hx
                rcases hfr2' with hcase | ⟨g, hcase⟩
                · rw [hcase] at hx
                  exact hinv3 x (by rw [hf]; exact List.mem_cons_of_mem _ hx)
                · have hxf : x ∈ fr := by rw [hcase]; exact List.mem_cons_of_mem _ hx
                  exact hinv3 x (by rw [hf]; exact List.mem_cons_of_mem _ hxf)
        · rename_i hcr
          have h' := Option.some.inj h
          simp only [Prod.mk.injEq] at h'
          obtain ⟨hr, hnrep, hst⟩ := h'
          subst hst
          have hna0 : st.next_addr.getD b 0 % es ≠ 0 := by simpa using hcr
          have hok := hinv1 b (List.mem_range.mpr hbb)
          have hdva : ps ∣ st.next_addr.getD b 0 := by
            rcases hok with h0 | ⟨_, hd⟩
            · rw [h0] at hna0; simp at hna0
            · exact hd
          refine ⟨?_, ?_, ?_⟩
          · intro b2 hb2
            show next_addr_ok ps
              ((st.next_addr.set b (st.next_addr.getD b 0 + ps)).getD b2 0)
            rcases getD_set_or st.next_addr b b2 (st.next_addr.getD b 0 + ps)
              with hcase | hcase
            · rw [hcase]
              refine Or.inr ⟨Nat.lt_of_lt_of_le hps (Nat.le_add_left ps _), ?_⟩
              exact Nat.dvd_add hdva dvd_rfl
            · rw [hcase]
              exact hinv1 b2 hb2
          · intro b2 hb2
            exact hinv2 b2 hb2
          · intro x hx
            exact hinv3 x hx
  · intro key st hinv
    obtain ⟨h1, h2, h3⟩ := hinv
    exact ⟨h1, h2, h3⟩
  · intro na hok hmod
    have h1 : es * (na / es) + na % es = na := Nat.div_add_mod na es
    have h2 : na % es < es := Nat.mod_lt _ hes
    have h3 : na / es * es = es * (na / es) := Nat.mul_comm _ _
    omega

/-- Witness for the amended C9 invariant preservation on the concrete
unkeyed run: alloc on batch 0 carries the invariant from stB0 to stB1. -/
theorem next_addr_invariant_amended_witness :
    (0 : Nat) < 4096 ∧ (0 : Nat) < 8192 ∧ (4096 : Nat) ∣ 8192
    ∧ mini_inv 4096 8192 stB0 ∧ mini_inv 4096 8192 stB1 :=
  ⟨by decide, by decide, by decide, by decide,
    (next_addr_invariant_amended 4096 8192 (by decide) (by decide) (by decide)).2.1
      0 none stB0 8192 81920 stB1 (by decide) (by decide)⟩
